import Mathlib

/-!
Verification development for the eijiro dictionary lookup tool.

The visible source is `src/main.rs` (frontend glue plus the top-level
loader).  The core engine lives in the external `eijiro_parser` crate
(data types, corpus parser, the `fst`-based lookup index and the
bincode cache); those parts are modelled from the specification, as
marked on each definition.  Headwords and all text are modelled as
`String` (UTF-8 byte-wise lexicographic order on valid UTF-8 agrees
with codepoint-wise lexicographic order, which is the order of the
`LinearOrder String` instance used here).
-/

namespace Eijiro

/-- Modelled from the spec (§3): one supplementary note of an explanation
(`eijiro_parser` type, not under `src/`); `main.rs` accesses `c.body`. -/
structure Complement where
  body : String
deriving DecidableEq

/-- Modelled from the spec (§3): one example sentence of a Field
(`eijiro_parser` type, not under `src/`); `main.rs` accesses `e.sentence`. -/
structure Example where
  sentence : String
deriving DecidableEq

/-- Modelled from the spec (§3): gloss body plus ordered complements
(`eijiro_parser` type, not under `src/`). -/
structure Explanation where
  body : String
  complements : List Complement
deriving DecidableEq

/-- Modelled from the spec (§3): one sense of a headword — optional ident
tag, explanation, ordered examples (`eijiro_parser::Field`, not under
`src/`; `main.rs` accesses `field.ident`, `field.explanation.body`,
`field.explanation.complements`, `field.examples`). -/
structure Field where
  ident : Option String
  explanation : Explanation
  examples : List Example
deriving DecidableEq

/-- Modelled from the spec (§3): the built Dictionary — sorted distinct
`keys` co-indexed with the per-key Field lists (`eijiro_parser::Dict`,
not under `src/`; `main.rs` accesses `dict.keys` and `dict.fields[idx]`). -/
structure Dict where
  keys : List String
  fields : List (List Field)
deriving DecidableEq

/-- Embeds `printer` (src/main.rs lines 12–35): renders one Field as
`{ident} : body ◆complement… (newline-indented examples)`.  The `key`
argument is accepted and unused, exactly as in the source. -/
def printer (key : String) (f : Field) : String :=
  (match f.ident with
   | some head => "\x7b" ++ head ++ "\x7d : "
   | none => "")
  ++ f.explanation.body
  ++ f.explanation.complements.foldl (fun p c => p ++ ("◆" ++ c.body)) ""
  ++ f.examples.foldl (fun p e => p ++ ("\n        " ++ e.sentence)) ""

/-- Rust `str::starts_with(&query)`: byte-wise literal prefix test; on
valid UTF-8 this coincides with the character-list prefix test. -/
def startsWith (w q : String) : Bool :=
  q.data.isPrefixOf w.data

/-- Helper for `editDist`: the distance between `x :: xs` and the second
argument, where `f` computes the distance from `xs`.  Recursion is
structural in the second list, so the definition evaluates by kernel
reduction. -/
def editDistAux (x : Char) (xs : List Char) (f : List Char → Nat) : List Char → Nat
  | [] => xs.length + 1
  | y :: ys =>
    if x = y then f ys
    else 1 + min (editDistAux x xs f ys) (min (f (y :: ys)) (f ys))

/-- Unit-cost Levenshtein edit distance (insertions, deletions,
substitutions) on character lists — the distance notion of spec §4.3. -/
def editDist : List Char → List Char → Nat
  | [], ys => ys.length
  | x :: xs, ys => editDistAux x xs (editDist xs) ys

/-- The usual two-sided recurrence for `editDist` on cons/cons. -/
theorem editDist_cons_cons (x y : Char) (xs ys : List Char) :
    editDist (x :: xs) (y :: ys)
      = if x = y then editDist xs ys
        else 1 + min (editDist (x :: xs) ys) (min (editDist xs (y :: ys)) (editDist xs ys)) :=
  rfl

/-- `editDist` against the empty word is the word's length. -/
theorem editDist_nil_right (xs : List Char) : editDist xs [] = xs.length := by
  cases xs <;> rfl

/-- Edit distance between two strings (on their character data). -/
def strDist (a b : String) : Nat :=
  editDist a.data b.data

/-- Keys paired with their positions starting at `n`: the (key, value)
pairs stored by the fst map, whose value for `keys[i]` is `i`. -/
def withIdx : List String → Nat → List (String × Nat)
  | [], _ => []
  | k :: ks, n => (k, n) :: withIdx ks (n + 1)

/-- Modelled from the spec (§4.3): the fst crate's Levenshtein-automaton
search stream (`dict.keys.search(&matcher).into_stream()`, not under
`src/`) — enumerates, in the index's natural key order, every
(key, position) pair whose key is within edit distance `d` of `word`. -/
def fuzzyIdx (keys : List String) (word : String) (d : Nat) : List (String × Nat) :=
  (withIdx keys 0).filter (fun p => strDist word p.1 ≤ d)

/-- Modelled from the spec (§4.3): the keys enumerated by the fuzzy
search, without positions. -/
def fuzzy (keys : List String) (word : String) (d : Nat) : List String :=
  keys.filter (fun k => strDist word k ≤ d)

/-- Modelled from the spec (§4.3): `exact(word)` — the position of `word`
in the sorted key sequence, if present (the fst map's `get`). -/
def exactPos : List String → String → Option Nat
  | [], _ => none
  | k :: ks, w => if k == w then some 0 else (exactPos ks w).map (· + 1)

/-- Embeds `default_lookup_distance` (src/main.rs line 37). -/
def default_lookup_distance : Nat := 0

/-- Embeds the stream loop of `lookup_word` (src/main.rs lines 39–49):
the (key, position) pairs consumed by the CLI printing loop, at the
default distance 0. -/
def lookup_word (dict : Dict) (word : String) : List (String × Nat) :=
  fuzzyIdx dict.keys word default_lookup_distance

/-- Embeds the stream-consumption phase of the GUI handler
(src/main.rs lines 142–154): every fuzzy match paired with its
rendered description (all of its Fields printed, each followed by a
newline).  The GUI instantiates the distance at 1; it is kept as a
parameter `d` here. -/
def wordDescs (dict : Dict) (q : String) (d : Nat) : List (String × String) :=
  (fuzzyIdx dict.keys q d).map (fun p =>
    (p.1, (dict.fields.getD p.2 []).foldl (fun desc f => desc ++ printer p.1 f ++ "\n") ""))

/-- Embeds the GUI query handler (src/main.rs lines 132–196): empty
query short-circuits to no results; otherwise the matches are split by
the literal-prefix test into `prefix_ok` and `prefix_ng` (in stream
order) and concatenated, prefix matches first. -/
def guiLookup (dict : Dict) (q : String) (d : Nat) : List (String × String) :=
  if q = "" then []
  else
    let wds := wordDescs dict q d
    let pr := wds.foldl
      (fun acc wd => if startsWith wd.1 q then (acc.1 ++ [wd], acc.2) else (acc.1, acc.2 ++ [wd]))
      ([], [])
    pr.1 ++ pr.2

/-- Modelled from the spec (§4.2): the Dictionary Builder (inside
`eijiro_parser::parse`, not under `src/`) — group parsed (headword,
Field) pairs by exact headword, keys are the sorted deduplicated
headwords, each key's Fields kept in encounter order. -/
def build (entries : List (String × Field)) : Dict :=
  let sortedKeys := List.insertionSort (· ≤ ·) (entries.map Prod.fst).dedup
  { keys := sortedKeys
    fields := sortedKeys.map (fun k => (entries.filter (fun e => e.1 == k)).map Prod.snd) }

/-- Modelled from the spec (§4.4): cache encoding of a string — length
prefix followed by the character codes (bincode lives outside `src/`;
the blob format is an implementation choice, only round-trip fidelity
is contractual). -/
def encStr (s : String) : List Nat :=
  s.data.length :: s.data.map Char.toNat

/-- Modelled from the spec (§4.4): cache encoding of a list — length
prefix followed by the encoded elements. -/
def encList (enc : α → List Nat) (xs : List α) : List Nat :=
  xs.length :: (xs.map enc).flatten

/-- Modelled from the spec (§4.4): cache encoding of an optional value —
tag 0 for absent, tag 1 followed by the encoded value. -/
def encOpt (enc : α → List Nat) : Option α → List Nat
  | none => [0]
  | some x => 1 :: enc x

/-- Modelled from the spec (§4.4): cache encoding of a Complement. -/
def encComplement (c : Complement) : List Nat :=
  encStr c.body

/-- Modelled from the spec (§4.4): cache encoding of an Example. -/
def encExample (e : Example) : List Nat :=
  encStr e.sentence

/-- Modelled from the spec (§4.4): cache encoding of an Explanation. -/
def encExplanation (e : Explanation) : List Nat :=
  encStr e.body ++ encList encComplement e.complements

/-- Modelled from the spec (§4.4): cache encoding of a Field. -/
def encField (f : Field) : List Nat :=
  encOpt encStr f.ident ++ encExplanation f.explanation ++ encList encExample f.examples

/-- Modelled from the spec (§4.4): `save` — serializes a Dictionary to
the opaque cache blob (`bincode::serialize`). -/
def serialize (d : Dict) : List Nat :=
  encList encStr d.keys ++ encList (encList encField) d.fields

/-- Modelled from the spec (§4.4): decode `n` characters; fails on a
token that is not a valid character code. -/
def decChars : Nat → List Nat → Option (List Char × List Nat)
  | 0, ts => some ([], ts)
  | _ + 1, [] => none
  | n + 1, t :: ts =>
    if (Char.ofNat t).toNat = t then
      match decChars n ts with
      | some (cs, r) => some (Char.ofNat t :: cs, r)
      | none => none
    else none

/-- Modelled from the spec (§4.4): decode one string. -/
def decStr : List Nat → Option (String × List Nat)
  | [] => none
  | n :: ts =>
    match decChars n ts with
    | some (cs, r) => some (String.mk cs, r)
    | none => none

/-- Modelled from the spec (§4.4): decode `n` values with `dec`. -/
def decCount (dec : List Nat → Option (α × List Nat)) :
    Nat → List Nat → Option (List α × List Nat)
  | 0, ts => some ([], ts)
  | n + 1, ts =>
    match dec ts with
    | some (x, r) =>
      match decCount dec n r with
      | some (xs, r2) => some (x :: xs, r2)
      | none => none
    | none => none

/-- Modelled from the spec (§4.4): decode a length-prefixed list. -/
def decList (dec : List Nat → Option (α × List Nat)) :
    List Nat → Option (List α × List Nat)
  | [] => none
  | n :: ts => decCount dec n ts

/-- Modelled from the spec (§4.4): decode an optional value. -/
def decOpt (dec : List Nat → Option (α × List Nat)) :
    List Nat → Option (Option α × List Nat)
  | [] => none
  | 0 :: ts => some (none, ts)
  | 1 :: ts =>
    match dec ts with
    | some (x, r) => some (some x, r)
    | none => none
  | _ :: _ => none

/-- Modelled from the spec (§4.4): decode one Complement. -/
def decComplement (ts : List Nat) : Option (Complement × List Nat) :=
  match decStr ts with
  | some (b, r) => some (⟨b⟩, r)
  | none => none

/-- Modelled from the spec (§4.4): decode one Example. -/
def decExample (ts : List Nat) : Option (Example × List Nat) :=
  match decStr ts with
  | some (s, r) => some (⟨s⟩, r)
  | none => none

/-- Modelled from the spec (§4.4): decode one Explanation. -/
def decExplanation (ts : List Nat) : Option (Explanation × List Nat) :=
  match decStr ts with
  | some (b, r) =>
    match decList decComplement r with
    | some (cs, r2) => some (⟨b, cs⟩, r2)
    | none => none
  | none => none

/-- Modelled from the spec (§4.4): decode one Field. -/
def decField (ts : List Nat) : Option (Field × List Nat) :=
  match decOpt decStr ts with
  | some (id?, r) =>
    match decExplanation r with
    | some (ex, r2) =>
      match decList decExample r2 with
      | some (es, r3) => some (⟨id?, ex, es⟩, r3)
      | none => none
    | none => none
  | none => none

/-- Modelled from the spec (§4.4): `load` — deserializes the cache blob
back into a Dictionary, failing (rather than crashing) on corrupt or
incompatible bytes (`bincode::deserialize`'s fallible result). -/
def deserialize (ts : List Nat) : Option Dict :=
  match decList decStr ts with
  | some (ks, r) =>
    match decList (decList decField) r with
    | some (fs, r2) => if r2 = [] then some ⟨ks, fs⟩ else none
    | none => none
  | none => none

/-- Embeds the top-level loader (src/main.rs lines 222–236).
`cacheRead` is the outcome of `std::fs::read("./dict_dump.bincode")`;
`entries` stands for the parsed corpus fed to the builder; `saveOk` is
the outcome of the best-effort cache write, discarded by the source
(`let _ = std::fs::write(...)`).  A `none` result models a panic: on
the `Ok` branch the source unwraps `bincode::deserialize`, so a
corrupt blob is a panic, not a fallback. -/
def loadDict (cacheRead : Option (List Nat)) (entries : List (String × Field))
    (saveOk : Bool) : Option Dict :=
  match cacheRead with
  | some bytes => deserialize bytes
  | none =>
    let d := build entries
    let _blob := serialize d
    let _ := saveOk
    some d

/-! ### Helper lemmas -/

theorem editDist_self (xs : List Char) : editDist xs xs = 0 := by
  induction xs with
  | nil => rfl
  | cons x xs ih => simp [editDist, editDistAux, ih]

theorem editDist_eq_zero (xs : List Char) : ∀ ys, editDist xs ys = 0 → xs = ys := by
  induction xs with
  | nil =>
    intro ys h
    simp [editDist] at h
    simp [h]
  | cons x xs ih =>
    intro ys h
    cases ys with
    | nil => simp [editDist_nil_right] at h
    | cons y ys =>
      rw [editDist_cons_cons] at h
      by_cases hxy : x = y
      · simp only [if_pos hxy] at h
        rw [hxy, ih ys h]
      · simp [if_neg hxy] at h

theorem strDist_self (s : String) : strDist s s = 0 :=
  editDist_self s.data

theorem strDist_eq_zero_iff (a b : String) : strDist a b = 0 ↔ a = b := by
  constructor
  · intro h
    cases a with
    | mk da =>
      cases b with
      | mk db =>
        have := editDist_eq_zero da db h
        simp [this]
  · intro h
    rw [h]
    exact strDist_self b

theorem mem_withIdx (l : List String) : ∀ (n : Nat) (p : String × Nat),
    p ∈ withIdx l n → p.1 ∈ l ∧ p.2 < n + l.length := by
  induction l with
  | nil => intro n p hp; simp [withIdx] at hp
  | cons k ks ih =>
    intro n p hp
    simp only [withIdx, List.mem_cons] at hp
    rcases hp with rfl | hp
    · refine ⟨by simp, ?_⟩
      simp only [List.length_cons]
      omega
    · rcases ih (n + 1) p hp with ⟨h1, h2⟩
      simp only [List.mem_cons, List.length_cons]
      exact ⟨Or.inr h1, by omega⟩

theorem withIdx_filter_fst (q : String → Bool) (l : List String) : ∀ n : Nat,
    (((withIdx l n).filter (fun p => q p.1)).map Prod.fst) = l.filter q := by
  induction l with
  | nil => intro n; simp [withIdx]
  | cons k ks ih =>
    intro n
    by_cases hq : q k
    · simp [withIdx, List.filter_cons, hq, ih (n + 1)]
    · simp [withIdx, List.filter_cons, hq, ih (n + 1)]

theorem fuzzyIdx_fst (keys : List String) (w : String) (d : Nat) :
    (fuzzyIdx keys w d).map Prod.fst = fuzzy keys w d :=
  withIdx_filter_fst (fun k => strDist w k ≤ d) keys 0

theorem foldl_partition (p : α → Bool) : ∀ (l : List α) (a b : List α),
    l.foldl
      (fun acc x => if p x then (acc.1 ++ [x], acc.2) else (acc.1, acc.2 ++ [x]))
      (a, b)
      = (a ++ l.filter p, b ++ l.filter (fun x => !p x)) := by
  intro l
  induction l with
  | nil => intro a b; simp
  | cons x xs ih =>
    intro a b
    by_cases hp : p x
    · simp [List.filter_cons, hp, ih]
    · simp [List.filter_cons, hp, ih]

theorem filter_beq_singleton : ∀ (l : List String) (w : String),
    l.Nodup → w ∈ l → l.filter (fun k => k == w) = [w] := by
  intro l
  induction l with
  | nil => intro w _ hw; simp at hw
  | cons k ks ih =>
    intro w hn hw
    rcases List.nodup_cons.mp hn with ⟨hk, hks⟩
    rcases List.mem_cons.mp hw with rfl | hw
    · have : ks.filter (fun x => x == w) = [] := by
        apply List.filter_eq_nil_iff.mpr
        intro a ha
        simp only [beq_iff_eq]
        intro hc
        exact hk (hc ▸ ha)
      simp [List.filter_cons, this]
    · have hkw : (k == w) = false := by
        simp only [beq_eq_false_iff_ne, ne_eq]
        intro hc
        exact hk (hc ▸ hw)
      simp [List.filter_cons, hkw, ih w hks hw]

theorem exactPos_mem : ∀ (l : List String) (w : String),
    w ∈ l → ∃ i, exactPos l w = some i ∧ l[i]? = some w := by
  intro l
  induction l with
  | nil => intro w hw; simp at hw
  | cons k ks ih =>
    intro w hw
    by_cases hk : k == w
    · refine ⟨0, ?_, ?_⟩
      · simp [exactPos, hk]
      · simp [beq_iff_eq] at hk
        simp [hk]
    · rcases List.mem_cons.mp hw with rfl | hw
      · simp at hk
      · rcases ih w hw with ⟨i, h1, h2⟩
        refine ⟨i + 1, ?_, ?_⟩
        · simp [exactPos, hk, h1]
        · simpa using h2

theorem decChars_enc (cs : List Char) (rest : List Nat) :
    decChars cs.length (cs.map Char.toNat ++ rest) = some (cs, rest) := by
  induction cs with
  | nil => rfl
  | cons c cs ih =>
    simp [decChars, Char.ofNat_toNat, ih]

theorem decStr_enc (s : String) (rest : List Nat) :
    decStr (encStr s ++ rest) = some (s, rest) := by
  cases s with
  | mk data =>
    simp only [encStr, List.cons_append, decStr, List.append_assoc]
    rw [decChars_enc]

theorem decCount_enc {α : Type} (dec : List Nat → Option (α × List Nat)) (enc : α → List Nat)
    (H : ∀ x rest, dec (enc x ++ rest) = some (x, rest)) :
    ∀ (xs : List α) (rest : List Nat),
      decCount dec xs.length ((xs.map enc).flatten ++ rest) = some (xs, rest) := by
  intro xs
  induction xs with
  | nil => intro rest; rfl
  | cons x xs ih =>
    intro rest
    simp only [List.map_cons, List.flatten_cons, List.length_cons, List.append_assoc]
    simp [decCount, H, ih]

theorem decList_enc {α : Type} (dec : List Nat → Option (α × List Nat)) (enc : α → List Nat)
    (H : ∀ x rest, dec (enc x ++ rest) = some (x, rest))
    (xs : List α) (rest : List Nat) :
    decList dec (encList enc xs ++ rest) = some (xs, rest) := by
  simp only [encList, List.cons_append, decList]
  exact decCount_enc dec enc H xs rest

theorem decOpt_enc {α : Type} (dec : List Nat → Option (α × List Nat)) (enc : α → List Nat)
    (H : ∀ x rest, dec (enc x ++ rest) = some (x, rest))
    (o : Option α) (rest : List Nat) :
    decOpt dec (encOpt enc o ++ rest) = some (o, rest) := by
  cases o with
  | none => rfl
  | some x => simp [encOpt, decOpt, H]

theorem decComplement_enc (c : Complement) (rest : List Nat) :
    decComplement (encComplement c ++ rest) = some (c, rest) := by
  cases c with
  | mk body => simp [decComplement, encComplement, decStr_enc]

theorem decExample_enc (e : Example) (rest : List Nat) :
    decExample (encExample e ++ rest) = some (e, rest) := by
  cases e with
  | mk s => simp [decExample, encExample, decStr_enc]

theorem decExplanation_enc (e : Explanation) (rest : List Nat) :
    decExplanation (encExplanation e ++ rest) = some (e, rest) := by
  cases e with
  | mk body comps =>
    simp only [encExplanation, List.append_assoc, decExplanation, decStr_enc,
      decList_enc decComplement encComplement decComplement_enc]

theorem decField_enc (f : Field) (rest : List Nat) :
    decField (encField f ++ rest) = some (f, rest) := by
  cases f with
  | mk id? ex es =>
    simp only [encField, List.append_assoc, decField,
      decOpt_enc decStr encStr decStr_enc, decExplanation_enc,
      decList_enc decExample encExample decExample_enc]

theorem deserialize_serialize (d : Dict) : deserialize (serialize d) = some d := by
  cases d with
  | mk keys fields =>
    have h2 : decList (decList decField) (encList (encList encField) fields)
        = some (fields, []) := by
      have := decList_enc (decList decField) (encList encField)
        (decList_enc decField encField decField_enc) fields []
      simpa using this
    simp only [serialize, deserialize, decList_enc decStr encStr decStr_enc, h2]
    rfl

theorem sorted_build_keys (entries : List (String × Field)) :
    List.Sorted (· < ·) (build entries).keys := by
  have h1 : List.Sorted (· ≤ ·)
      (List.insertionSort (· ≤ ·) (entries.map Prod.fst).dedup) :=
    List.sorted_insertionSort (· ≤ ·) (entries.map Prod.fst).dedup
  have hperm := List.perm_insertionSort (· ≤ ·) (entries.map Prod.fst).dedup
  have hnodup : (List.insertionSort (· ≤ ·) (entries.map Prod.fst).dedup).Nodup :=
    hperm.nodup_iff.mpr (List.nodup_dedup _)
  have : List.Pairwise (fun a b : String => a ≤ b ∧ a ≠ b)
      (List.insertionSort (· ≤ ·) (entries.map Prod.fst).dedup) :=
    List.Pairwise.and h1 hnodup
  exact this.imp (fun h => lt_of_le_of_ne h.1 h.2)

theorem nodup_build_keys (entries : List (String × Field)) :
    (build entries).keys.Nodup :=
  (List.perm_insertionSort (· ≤ ·) (entries.map Prod.fst).dedup).nodup_iff.mpr
    (List.nodup_dedup _)

/-! ### Concrete sample data (the scenario of spec §8) -/

/-- Sample Field: headword `cat`, tag `n`, one example. -/
def catFieldN : Field :=
  ⟨some "n", ⟨"feline animal", []⟩, [⟨"The cat slept."⟩]⟩

/-- Sample Field: headword `cat`, tag `v`, no examples. -/
def catFieldV : Field :=
  ⟨some "v", ⟨"to move stealthily", []⟩, []⟩

/-- Sample Field: headword `catalog`, untagged. -/
def catalogField : Field :=
  ⟨none, ⟨"a list of items", []⟩, []⟩

/-- A small concrete Dictionary over the §8 scenario, keys sorted and
co-indexed with their Field groups. -/
def sampleDict : Dict :=
  ⟨["cat", "catalog"], [[catFieldN, catFieldV], [catalogField]]⟩

/-! ### Claims -/

/-- C1 (counterexample): the loader does not fall back on a corrupt
cache blob — when the cache file reads successfully but its bytes do
not deserialize, `main` unwraps the failure and panics (modelled as
`none`), instead of building the Dictionary fresh. -/
theorem cache_corrupt_blob_panics :
    loadDict (some [42]) [] true = none
    ∧ loadDict (some [42]) [] true ≠ some (build []) :=
  ⟨rfl, by decide⟩

/-- C1 (amended): the loader falls back to parsing and building only
when *reading* the cache file fails (e.g. the file is missing); when
the file is read, the loader returns exactly the deserialization
result, and a failing deserialization (corrupt or incompatible blob)
is an unwrap panic rather than a fallback. -/
theorem cache_load_fallback_on_read_failure (bytes : List Nat)
    (entries : List (String × Field)) (saveOk : Bool) :
    loadDict none entries saveOk = some (build entries)
    ∧ (deserialize bytes = none → loadDict (some bytes) entries saveOk = none)
    ∧ (∀ d, deserialize bytes = some d → loadDict (some bytes) entries saveOk = some d) := by
  refine ⟨rfl, ?_, ?_⟩
  · intro h
    simp [loadDict, h]
  · intro d h
    simp [loadDict, h]

/-- C1 witness: at the corrupt blob `[42]` the loader panics, while a
missing cache file produces the freshly built Dictionary. -/
theorem cache_load_fallback_on_read_failure_witness :
    deserialize [42] = none
    ∧ loadDict (some [42]) [] true = none
    ∧ loadDict none ([] : List (String × Field)) true = some (build []) :=
  ⟨rfl, (cache_load_fallback_on_read_failure [42] [] true).2.1 rfl,
    (cache_load_fallback_on_read_failure [42] [] true).1⟩

/-- C2: for a non-empty query, the GUI lookup returns exactly the fuzzy
matches partitioned into the literal-prefix group followed by the
non-prefix group, each group keeping the stream's enumeration order
(`filter` preserves relative order); hence every prefix match precedes
every non-prefix match. -/
theorem gui_lookup_prefix_first (dict : Dict) (q : String) (d : Nat) (h : q ≠ "") :
    guiLookup dict q d
      = (wordDescs dict q d).filter (fun wd => startsWith wd.1 q)
        ++ (wordDescs dict q d).filter (fun wd => !startsWith wd.1 q)
    ∧ (∀ x ∈ (wordDescs dict q d).filter (fun wd => startsWith wd.1 q),
        startsWith x.1 q = true)
    ∧ (∀ x ∈ (wordDescs dict q d).filter (fun wd => !startsWith wd.1 q),
        startsWith x.1 q = false) := by
  refine ⟨?_, ?_, ?_⟩
  · simp only [guiLookup, if_neg h]
    rw [foldl_partition (fun wd => startsWith wd.1 q) (wordDescs dict q d) [] []]
    simp
  · intro x hx
    exact (List.mem_filter.mp hx).2
  · intro x hx
    have := (List.mem_filter.mp hx).2
    simpa using this

/-- C2 witness: the partition property at the §8 sample dictionary,
query `cat`, distance 1. -/
theorem gui_lookup_prefix_first_witness :
    ("cat" : String) ≠ ""
    ∧ (guiLookup sampleDict "cat" 1
        = (wordDescs sampleDict "cat" 1).filter (fun wd => startsWith wd.1 "cat")
          ++ (wordDescs sampleDict "cat" 1).filter (fun wd => !startsWith wd.1 "cat")
      ∧ (∀ x ∈ (wordDescs sampleDict "cat" 1).filter (fun wd => startsWith wd.1 "cat"),
          startsWith x.1 "cat" = true)
      ∧ (∀ x ∈ (wordDescs sampleDict "cat" 1).filter (fun wd => !startsWith wd.1 "cat"),
          startsWith x.1 "cat" = false)) :=
  ⟨by decide, gui_lookup_prefix_first sampleDict "cat" 1 (by decide)⟩

/-- C3: the cache round-trips — deserializing the serialization of any
built Dictionary reconstructs a Dictionary with the identical keys
sequence and identical per-key Field lists. -/
theorem cache_round_trip (d : Dict) :
    ∃ d2, deserialize (serialize d) = some d2
      ∧ d2.keys = d.keys ∧ d2.fields = d.fields :=
  ⟨d, deserialize_serialize d, rfl, rfl⟩

/-- C4 (counterexample): enumeration by `fuzzy` is not equivalent to the
edit-distance bound alone — `dog` is at distance 0 from itself, yet is
not enumerated by `fuzzy` over an index whose keys do not contain it. -/
theorem fuzzy_distance_iff_counterexample :
    ¬ (("dog" ∈ fuzzy ["cat"] "dog" 0) ↔ strDist "dog" "dog" ≤ 0) := by
  decide

/-- C4 (amended): `w2` is enumerated by `fuzzy(w1, d)` iff `w2` is one
of the index's keys *and* the unit-cost edit distance between `w1` and
`w2` is at most `d`. -/
theorem fuzzy_mem_iff_key (keys : List String) (w1 w2 : String) (d : Nat) :
    w2 ∈ fuzzy keys w1 d ↔ w2 ∈ keys ∧ strDist w1 w2 ≤ d := by
  simp [fuzzy, List.mem_filter]

/-- C5: for a key `w` of the dictionary, `exact` returns a position that
holds `w`, and distance-0 fuzzy search returns exactly the singleton
`[w]` — no false positives and no false negatives. -/
theorem exact_fuzzy_zero_consistency (keys : List String) (w : String)
    (hnd : keys.Nodup) (hw : w ∈ keys) :
    (∃ i, exactPos keys w = some i ∧ keys[i]? = some w)
    ∧ fuzzy keys w 0 = [w] := by
  refine ⟨exactPos_mem keys w hw, ?_⟩
  have hcong : ∀ k ∈ keys, (decide (strDist w k ≤ 0)) = (k == w) := by
    intro k _
    by_cases h : k = w
    · simp [h, strDist_self]
    · have hne : ¬ strDist w k ≤ 0 := by
        intro hle
        have h0 : strDist w k = 0 := Nat.le_zero.mp hle
        exact h ((strDist_eq_zero_iff w k).mp h0).symm
      simp [hne, h]
  calc fuzzy keys w 0 = keys.filter (fun k => k == w) := List.filter_congr hcong
    _ = [w] := filter_beq_singleton keys w hnd hw

/-- C5 witness: exact lookup and distance-0 fuzzy search agree at the
key `cat` of the two-key index. -/
theorem exact_fuzzy_zero_consistency_witness :
    (["cat", "dog"] : List String).Nodup
    ∧ ("cat" : String) ∈ (["cat", "dog"] : List String)
    ∧ ((∃ i, exactPos ["cat", "dog"] "cat" = some i
          ∧ (["cat", "dog"] : List String)[i]? = some "cat")
       ∧ fuzzy ["cat", "dog"] "cat" 0 = ["cat"]) :=
  ⟨by decide, by decide,
    exact_fuzzy_zero_consistency ["cat", "dog"] "cat" (by decide) (by decide)⟩

/-- C6: the empty query short-circuits to an empty result — a valid
outcome, produced without touching the Field table. -/
theorem gui_lookup_empty_query (dict : Dict) (d : Nat) :
    guiLookup dict "" d = [] := by
  simp [guiLookup]

/-- C7: a failed cache save is not fatal — the loader returns the
freshly built in-memory Dictionary whether the best-effort write
succeeded or not. -/
theorem save_failure_not_fatal (entries : List (String × Field)) :
    loadDict none entries false = some (build entries)
    ∧ loadDict none entries false = loadDict none entries true :=
  ⟨rfl, rfl⟩

/-- C8: the keys of every built Dictionary are strictly ascending in
lexicographic order; in particular they contain no duplicates. -/
theorem build_keys_strictly_sorted (entries : List (String × Field)) :
    List.Sorted (· < ·) (build entries).keys ∧ (build entries).keys.Nodup :=
  ⟨sorted_build_keys entries, nodup_build_keys entries⟩

/-- C9: the fuzzy search enumerates in the index's natural sorted-key
order — the stream's keys are exactly a filter of `keys` (an
order-preserving sublist), so on a sorted index the enumeration is
itself sorted, not distance-ranked. -/
theorem fuzzy_enumeration_order (keys : List String) (w : String) (d : Nat)
    (hs : List.Sorted (· < ·) keys) :
    (fuzzyIdx keys w d).map Prod.fst = fuzzy keys w d
    ∧ (fuzzy keys w d).Sublist keys
    ∧ List.Sorted (· < ·) (fuzzy keys w d) := by
  have hsub : (fuzzy keys w d).Sublist keys := List.filter_sublist keys
  exact ⟨fuzzyIdx_fst keys w d, hsub, List.Pairwise.sublist hsub hs⟩

/-- C9 witness: enumeration order over the sorted two-key index at
query `cat`, distance 1. -/
theorem fuzzy_enumeration_order_witness :
    List.Sorted (· < ·) (["cat", "dog"] : List String)
    ∧ ((fuzzyIdx ["cat", "dog"] "cat" 1).map Prod.fst = fuzzy ["cat", "dog"] "cat" 1
       ∧ (fuzzy ["cat", "dog"] "cat" 1).Sublist ["cat", "dog"]
       ∧ List.Sorted (· < ·) (fuzzy ["cat", "dog"] "cat" 1)) :=
  have hs : List.Sorted (· < ·) (["cat", "dog"] : List String) := by
    simp [List.sorted_cons]
    decide
  ⟨hs, fuzzy_enumeration_order ["cat", "dog"] "cat" 1 hs⟩

/-- C10: the result-processing loop is safe — given the co-indexing
invariant `len(keys) = len(fields)`, every pair yielded by the search
stream carries a key of the index (a valid UTF-8 string by
construction) and a position within the bounds of the Field table. -/
theorem stream_loop_safe (keys : List String) (fields : List (List Field))
    (w : String) (d : Nat) (h : keys.length = fields.length) :
    ∀ p ∈ fuzzyIdx keys w d, p.1 ∈ keys ∧ p.2 < fields.length := by
  intro p hp
  have hp2 : p ∈ withIdx keys 0 := List.mem_of_mem_filter hp
  rcases mem_withIdx keys 0 p hp2 with ⟨h1, h2⟩
  refine ⟨h1, ?_⟩
  omega

/-- C10 witness: loop safety at the §8 sample dictionary, query `cat`,
distance 1. -/
theorem stream_loop_safe_witness :
    sampleDict.keys.length = sampleDict.fields.length
    ∧ ∀ p ∈ fuzzyIdx sampleDict.keys "cat" 1,
        p.1 ∈ sampleDict.keys ∧ p.2 < sampleDict.fields.length :=
  ⟨rfl, stream_loop_safe sampleDict.keys sampleDict.fields "cat" 1 rfl⟩

end Eijiro
